import Mathlib

/-!
Verification of the gitoxide multi-pack-index writer and single-pack-index
header decoder, shallowly embedded from `git-pack/src/multi_index/write.rs`
and `git-index/src/decode.rs`.

Machine integers are modelled as `Nat` (bytes are `Nat`s `< 256` produced by
explicit `% 256` encoders).  Fallible operations return `Except`.  Stateful
output is explicit: the output sink is a pair of byte lists (raw bytes and
bytes observed by the streaming hasher).
-/

namespace Gitoxide

/-- Embeds `git_hash::Kind`: the hash kinds the format supports (SHA-1, SHA-256). -/
inductive HashKind where
  | sha1
  | sha256
deriving DecidableEq

/-- Modelled from the spec: an object id is a "fixed-width cryptographic
hash (20 or 32 bytes depending on hash kind)"; `git_hash::Kind::len_in_bytes`
itself is not under the sources. -/
def HashKind.lenInBytes : HashKind → Nat
  | .sha1 => 20
  | .sha256 => 32

/-- Big-endian fixed-width byte encoding of a natural number: `w` bytes,
most significant first, each reduced `% 256` (matching two's-complement
truncation of machine integers). -/
def natBE : Nat → Nat → List Nat
  | 0, _ => []
  | w + 1, n => natBE w (n / 256) ++ [n % 256]

/-- Modelled from the spec: `git-index`'s `util::read_u32` reads a 4-byte
big-endian `u32` ("big-endian integers throughout"); the util module is not
under the sources. -/
def read_u32 (b : List Nat) : Nat :=
  match b with
  | a :: b :: c :: d :: _ => ((a * 256 + b) * 256 + c) * 256 + d
  | _ => 0

/-- Embeds `git-index` `decode::header::Error`. -/
inductive HeaderError where
  | Corrupt (message : String)
  | UnsupportedVersion (version : Nat)
deriving DecidableEq

/-- Embeds `git-index` `Version` (index format versions 2, 3, 4). -/
inductive IndexVersion where
  | V2
  | V3
  | V4
deriving DecidableEq

/-- The 4-byte signature `b"DIRC"` of a single-pack index header. -/
def dircSignature : List Nat := [0x44, 0x49, 0x52, 0x43]

/-- Embeds `git-index` `decode::header::decode`: checks the minimum length
(12 bytes plus the hash width), the `"DIRC"` signature, maps the big-endian
version number to an enumerated version, and reads the entry count;
returns the version, the entry count and the unconsumed remainder. -/
def header.decode (data : List Nat) (object_hash : HashKind) :
    Except HeaderError (IndexVersion × Nat × List Nat) :=
  if data.length < 3 * 4 + object_hash.lenInBytes then
    .error (.Corrupt "File is too small even for header with zero entries and smallest hash")
  else
    let signature := data.take 4
    let rest := data.drop 4
    if signature ≠ dircSignature then
      .error (.Corrupt "Signature mismatch - this doesn't claim to be a header file")
    else
      match read_u32 (rest.take 4) with
      | 2 => .ok (.V2, read_u32 ((rest.drop 4).take 4), (rest.drop 4).drop 4)
      | 3 => .ok (.V3, read_u32 ((rest.drop 4).take 4), (rest.drop 4).drop 4)
      | 4 => .ok (.V4, read_u32 ((rest.drop 4).take 4), (rest.drop 4).drop 4)
      | unknown => .error (.UnsupportedVersion unknown)

instance {ε α : Type} [DecidableEq ε] [DecidableEq α] : DecidableEq (Except ε α) := fun x y =>
  match x, y with
  | .ok a, .ok b =>
    if h : a = b then .isTrue (congrArg Except.ok h)
    else .isFalse fun c => h (Except.ok.inj c)
  | .error a, .error b =>
    if h : a = b then .isTrue (congrArg Except.error h)
    else .isFalse fun c => h (Except.error.inj c)
  | .ok _, .error _ => .isFalse fun c => Except.noConfusion c
  | .error _, .ok _ => .isFalse fun c => Except.noConfusion c

/-- Embeds `git-index` `decode::Error` (the only variant present wraps a header
error). -/
inductive DecodeError where
  | Header (err : HeaderError)
deriving DecidableEq

/-- Embeds `git-index` `State` as constructed at the end of `State::from_bytes`
(`State { timestamp, version }`); the timestamp is the caller-provided
reference `FileTime`, modelled as a `Nat`. -/
structure State where
  timestamp : Nat
  version : IndexVersion
deriving DecidableEq

/-- Outcome of running Rust code that may also panic (`todo!`,
`unreachable!`): distinguishes a normal return, a returned error, and a
panic. -/
inductive RunOutcome (α : Type) where
  | ok (a : α)
  | err (e : DecodeError)
  | panics (msg : String)
deriving DecidableEq

/-- Embeds `git-index` `State::from_bytes`: decodes the header and then, in the
source, *every* control path of the body ends in a `todo!` placeholder —
both arms of the `match` on the optional extension offset (and the tree
extension arm inside the loop) are `todo!(..)`, so the trailing
`Ok(State { .. })` expression is unreachable.  The model therefore
collapses all successful-header paths to a panic. -/
def State.from_bytes (data : List Nat) (timestamp : Nat) (object_hash : HashKind) :
    RunOutcome State :=
  match header.decode data object_hash with
  | .error e => .err (.Header e)
  | .ok _ =>
    let _ := timestamp
    .panics "not yet implemented"

/-- List-valued helper: which enumerated version a raw version number maps
to (`2 ↦ V2`, `3 ↦ V3`, `4 ↦ V4`, anything else unsupported). -/
def versionOf (n : Nat) : Option IndexVersion :=
  match n with
  | 2 => some .V2
  | 3 => some .V3
  | 4 => some .V4
  | _ => none

/-- A concrete well-formed version-2 index buffer with 7 declared entries:
signature, version, entry count, then 20 trailing bytes (SHA-1 width). -/
def sampleIndexBytes : List Nat := dircSignature ++ [0, 0, 0, 2] ++ [0, 0, 0, 7] ++ List.replicate 20 0

/-- A buffer whose header decodes successfully (version 2, zero entries,
SHA-1 trailing width). -/
def validHeaderBytes : List Nat := dircSignature ++ [0, 0, 0, 2] ++ [0, 0, 0, 0] ++ List.replicate 20 0

/-- Embeds `git-pack` `multi_index::write::Entry`: an entry suitable for sorting
and writing.  Object ids, offsets and modification times are modelled as
`Nat`; for `SystemTime`, `UNIX_EPOCH` is `0`. -/
structure Entry where
  id : Nat
  pack_index : Nat
  pack_offset : Nat
  index_mtime : Nat
deriving DecidableEq

/-- The comparator of the sort in `write_from_index_paths` (write.rs lines
114–118): `l.id.cmp(&r.id).then_with(|| l.index_mtime.cmp(&r.index_mtime)
.reverse()).then_with(|| l.pack_index.cmp(&r.pack_index))`. -/
def entryCmp (l r : Entry) : Ordering :=
  (compare l.id r.id).then
    ((compare l.index_mtime r.index_mtime).swap.then (compare l.pack_index r.pack_index))

/-- The non-strict relation induced by `entryCmp`.  Rust's stable
`sort_by` is modelled as `List.insertionSort` over this relation; any two
stable sorts with the same comparator produce the same list. -/
def entryLe (l r : Entry) : Prop := entryCmp l r ≠ .gt

instance : DecidableRel entryLe := fun a b => inferInstanceAs (Decidable (entryCmp a b ≠ .gt))

/-- Helper for `Vec::dedup_by_key`: `prev` is the last retained element; a
subsequent element whose key equals `prev`'s is dropped, otherwise it is
kept and becomes the new last-retained element. -/
def dedupGo (prev : Entry) : List Entry → List Entry
  | [] => []
  | b :: rest => if b.id = prev.id then dedupGo prev rest else b :: dedupGo b rest

/-- Embeds `entries.dedup_by_key(|e| e.id)` (write.rs line 119): keeps only the
first element of every run of consecutive elements sharing an id. -/
def dedupByKeyId : List Entry → List Entry
  | [] => []
  | a :: rest => a :: dedupGo a rest

/-- The sort-and-dedup pass of `write_from_index_paths` (lines 114–119). -/
def processEntries (l : List Entry) : List Entry :=
  dedupByKeyId (l.insertionSort entryLe)

/-- What one single-pack index file provides during collection: the
optional filesystem modification time (`metadata().and_then(|m| m.modified())`)
and the `(oid, pack_offset)` pairs its iterator yields, in order. -/
structure IndexData where
  mtime : Option Nat
  objects : List (Nat × Nat)
deriving DecidableEq

/-- Embeds `multi_index::write::Error`: an I/O error, cooperative interruption,
or a failure to open a source index (error payloads carried as codes). -/
inductive WriteError where
  | Io (code : Nat)
  | Interrupted
  | OpenIndex (code : Nat)
deriving DecidableEq

/-- One collected batch (write.rs lines 90–103): every object of the index
at position `index_id` of the sorted path list, tagged with
`pack_index = index_id` and the file's mtime with `unwrap_or(UNIX_EPOCH)`
as fallback. -/
def collectBatch (index_id : Nat) (d : IndexData) : List Entry :=
  d.objects.map fun o => ⟨o.1, index_id, o.2, d.mtime.getD 0⟩

/-- The collection loop (write.rs lines 90–108).  `fs` models opening the
single-pack index at a path (`index::File::at`, which may fail); `si`
models the `should_interrupt` flag as observed by its `k`-th load — the
loop loads it once per file, after that file's entries were appended. -/
def collectGo (fs : Nat → Except Nat IndexData) (si : Nat → Bool) :
    Nat → List Nat → Except WriteError (List Entry)
  | _, [] => .ok []
  | index_id, p :: rest =>
    match fs p with
    | .error e => .error (.OpenIndex e)
    | .ok d =>
      if si index_id then .error .Interrupted
      else
        match collectGo fs si (index_id + 1) rest with
        | .error e => .error e
        | .ok tail => .ok (collectBatch index_id d ++ tail)

/-- The whole entry-construction phase (write.rs lines 83–126): the
collection loop, the sort/dedup pass, and the final collection-phase
interruption check — the flag's `n`-th load when there are `n` paths. -/
def collectPhase (fs : Nat → Except Nat IndexData) (si : Nat → Bool) (paths : List Nat) :
    Except WriteError (List Entry) :=
  match collectGo fs si 0 paths with
  | .error e => .error e
  | .ok raw =>
    if si paths.length then .error .Interrupted
    else .ok (processEntries raw)

/-- The 4-byte tag of the pack-names chunk (`b"PNAM"`). -/
def pnamId : List Nat := [0x50, 0x4E, 0x41, 0x4D]

/-- The 4-byte tag of the fan-out chunk (`b"OIDF"`). -/
def oidfId : List Nat := [0x4F, 0x49, 0x44, 0x46]

/-- The 4-byte tag of the lookup chunk (`b"OIDL"`). -/
def oidlId : List Nat := [0x4F, 0x49, 0x44, 0x4C]

/-- The 4-byte tag of the offsets chunk (`b"OOFF"`). -/
def ooffId : List Nat := [0x4F, 0x4F, 0x46, 0x46]

/-- The 4-byte tag of the large-offsets chunk (`b"LOFF"`). -/
def loffId : List Nat := [0x4C, 0x4F, 0x46, 0x46]

/-- Modelled from the spec: the one-byte hash-kind tag stored in the
multi-index header (`git_hash::Kind as u8`; the crate defining the
discriminants is not under the sources). -/
def HashKind.toByte : HashKind → Nat
  | .sha1 => 1
  | .sha256 => 2

/-- Modelled from the spec: "the maximum value representable in 31 bits" —
the largest pack offset stored literally (`0x7fff_ffff`). -/
def LARGE_OFFSET_THRESHOLD : Nat := 0x7fffffff

/-- Modelled from the spec: `multi_index::chunk::large_offsets::num_large_offsets`
scans all entries once and returns `Some(count)` iff any offset exceeds the
threshold (the `chunk` module is not under the sources). -/
def num_large_offsets (entries : List Entry) : Option Nat :=
  let n := entries.countP fun e => decide (LARGE_OFFSET_THRESHOLD < e.pack_offset)
  if n = 0 then none else some n

/-- Modelled from the spec: the offsets chunk writes, per entry in lookup
order, `pack_index` and then either the literal offset (high bit clear) or
`0x80000000 + running-index-into-large-offsets` (high bit set) when the
offset exceeds the threshold; `k` counts the large offsets emitted so far. -/
def offsetsGo (large_ok : Bool) (k : Nat) : List Entry → List (Nat × Nat)
  | [] => []
  | e :: rest =>
    if large_ok && decide (LARGE_OFFSET_THRESHOLD < e.pack_offset) then
      (e.pack_index, 0x80000000 + k) :: offsetsGo large_ok (k + 1) rest
    else
      (e.pack_index, e.pack_offset) :: offsetsGo large_ok k rest

/-- The 32-bit slot values of the offsets chunk, in entry order. -/
def offsetSlots (large_ok : Bool) (entries : List Entry) : List Nat :=
  (offsetsGo large_ok 0 entries).map (·.2)

/-- Byte serialization of the offsets chunk: per entry a big-endian u32
`pack_index` followed by the big-endian u32 slot value. -/
def offsetsChunk (large_ok : Bool) (entries : List Entry) : List Nat :=
  ((offsetsGo large_ok 0 entries).map fun p => natBE 4 p.1 ++ natBE 4 p.2).flatten

/-- The overflowing offsets, in the order their flagged slots appear. -/
def largeOffsetsVals (entries : List Entry) : List Nat :=
  (entries.filter fun e => decide (LARGE_OFFSET_THRESHOLD < e.pack_offset)).map (·.pack_offset)

/-- Modelled from the spec: the large-offsets chunk writes the overflowing
offsets as 8-byte big-endian values in slot order. -/
def largeOffsetsChunk (entries : List Entry) : List Nat :=
  ((largeOffsetsVals entries).map (natBE 8)).flatten

/-- How many entries of `l` carry a large offset (the running index that a
flagged slot of the offsets chunk stores, when `l` is a prefix). -/
def largeCount (l : List Entry) : Nat :=
  l.countP fun e => decide (LARGE_OFFSET_THRESHOLD < e.pack_offset)

/-- Modelled from the spec: pack-names chunk — each name written as a
NUL-terminated byte string in sorted order, padded to 4-byte alignment.
Path tokens stand in for path names; a name's bytes are the token's 4-byte
big-endian rendering. -/
def indexNamesChunk (names : List Nat) : List Nat :=
  let base := (names.map fun n => natBE 4 n ++ [0]).flatten
  base ++ List.replicate ((4 - base.length % 4) % 4) 0

/-- First byte of an object id of the given hash width. -/
def firstByte (k : HashKind) (id : Nat) : Nat :=
  id / 256 ^ (k.lenInBytes - 1) % 256

/-- Modelled from the spec: fan-out chunk — 256 big-endian u32 cumulative
counts of entries whose first id byte is at most the bucket index. -/
def fanoutChunk (k : HashKind) (entries : List Entry) : List Nat :=
  ((List.range 256).map fun b =>
    natBE 4 (entries.countP fun e => decide (firstByte k e.id ≤ b))).flatten

/-- Modelled from the spec: lookup chunk — the ordered object ids written
back-to-back at hash width. -/
def lookupChunk (k : HashKind) (entries : List Entry) : List Nat :=
  (entries.map fun e => natBE k.lenInBytes e.id).flatten

/-- The chunks planned by `write_from_index_paths` (lines 128–149) in
planning order, as `(id, declared size)`; the large-offsets chunk is
planned iff `num_large_offsets` returned `Some`. -/
def chunkPlan (k : HashKind) (names : List Nat) (entries : List Entry) :
    List (List Nat × Nat) :=
  [(pnamId, (indexNamesChunk names).length),
   (oidfId, 1024),
   (oidlId, (lookupChunk k entries).length),
   (ooffId, (offsetsChunk (num_large_offsets entries).isSome entries).length)] ++
  (match num_large_offsets entries with
   | some m => [(loffId, 8 * m)]
   | none => [])

/-- The chunk bodies produced by the writer loop (lines 174–195), in
planning order. -/
def chunkBodies (k : HashKind) (names : List Nat) (entries : List Entry) :
    List (List Nat) :=
  [indexNamesChunk names,
   fanoutChunk k entries,
   lookupChunk k entries,
   offsetsChunk (num_large_offsets entries).isSome entries] ++
  (match num_large_offsets entries with
   | some _ => [largeOffsetsChunk entries]
   | none => [])

/-- Embeds `multi_index::File::HEADER_LEN` (write.rs lines 53–58). -/
def HEADER_LEN : Nat := 4 + 1 + 1 + 1 + 1 + 4

/-- Embeds `multi_index::File::SIGNATURE` (`b"MIDX"`). -/
def midxSignature : List Nat := [0x4D, 0x49, 0x44, 0x58]

/-- Embeds `multi_index::File::write_header` (write.rs lines 209–223): signature,
version byte (`Version::V1 as u8`, which the spec fixes to 1), hash-kind
byte, chunk-count byte, reserved 0 byte, big-endian u32 pack count; the
function's return value is `HEADER_LEN`. -/
def write_header (num_chunks : Nat) (num_indices : Nat) (object_hash : HashKind) :
    List Nat × Nat :=
  (midxSignature ++ [1, object_hash.toByte, num_chunks % 256, 0] ++ natBE 4 num_indices,
   HEADER_LEN)

/-- Modelled from the spec: the chunk table of the Chunked File Layout
Engine — one record of 4-byte id plus 8-byte big-endian offset per planned
chunk, offsets computed as header length plus table length plus running
sum, closed by a terminator record with id 0 holding the end offset
(`git-chunk` is not under the sources). -/
def tocGo (ofs : Nat) : List (List Nat × Nat) → List Nat
  | [] => natBE 4 0 ++ natBE 8 ofs
  | (id, size) :: rest => id ++ natBE 8 ofs ++ tocGo (ofs + size) rest

/-- The serialized chunk table for a plan. -/
def tocBytes (plan : List (List Nat × Nat)) : List Nat :=
  tocGo (HEADER_LEN + (plan.length + 1) * 12) plan

/-- The output sink: the raw bytes that reached the underlying writer and
the bytes observed by the streaming hasher (`git_features::hash::Write`
wraps the raw sink before anything is written). -/
structure Sink where
  raw : List Nat
  hashed : List Nat
deriving DecidableEq

/-- A write through the hashing wrapper: both streams observe the bytes. -/
def writeHashed (s : Sink) (bs : List Nat) : Sink :=
  ⟨s.raw ++ bs, s.hashed ++ bs⟩

/-- A write to `out.inner.inner`, bypassing the hasher (only the trailing
checksum is written this way). -/
def writeRawOnly (s : Sink) (bs : List Nat) : Sink :=
  ⟨s.raw ++ bs, s.hashed⟩

/-- The chunk-writing loop (write.rs lines 174–195): each body goes
through the hasher, then the interruption flag is loaded once. -/
def writeChunksGo (si : Nat → Bool) (tick : Nat) (s : Sink) :
    List (List Nat) → Except WriteError Unit × Sink
  | [] => (.ok (), s)
  | body :: rest =>
    let s := writeHashed s body
    if si tick then (.error .Interrupted, s)
    else writeChunksGo si (tick + 1) s rest

/-- Embeds `multi_index::File::write_from_index_paths` (write.rs lines 63–207).
`H` is the digest function of the streaming hash for the chosen hash kind;
`fs` models the filesystem (path token to single-pack index contents); `si`
models the `should_interrupt` flag by load number (loads 0..n-1 happen in
the collection loop, load n after sort/dedup, loads n+1.. after each chunk
body).  Paths are `Nat` tokens ordered as `PathBuf`s are, and `file_name`
is modelled as the identity on tokens.  Progress reporting is dropped.
Returns the result (checksum on success) and the raw bytes written. -/
def writeFromIndexPaths (H : List Nat → List Nat) (fs : Nat → Except Nat IndexData)
    (si : Nat → Bool) (object_hash : HashKind) (index_paths : List Nat) :
    Except WriteError (List Nat) × List Nat :=
  let paths := index_paths.insertionSort (· ≤ ·)
  match collectPhase fs si paths with
  | .error e => (.error e, [])
  | .ok entries =>
    let plan := chunkPlan object_hash paths entries
    let headerB := (write_header plan.length paths.length object_hash).1
    let s := writeHashed (writeHashed ⟨[], []⟩ headerB) (tocBytes plan)
    match writeChunksGo si (paths.length + 1) s (chunkBodies object_hash paths entries) with
    | (.error e, s) => (.error e, s.raw)
    | (.ok _, s) =>
      let checksum := H s.hashed
      (.ok checksum, (writeRawOnly s checksum).raw)

/-- Reference shape of a fully collected entry list: the concatenation of
the per-index batches, the batch of the index at position `i0 + j` tagged
with that position. -/
def expectedEntries (i0 : Nat) : List IndexData → List Entry
  | [] => []
  | d :: rest => collectBatch i0 d ++ expectedEntries (i0 + 1) rest

/-- A sample digest function for concrete runs (the model's theorems hold
for every digest function). -/
def sampleHash (l : List Nat) : List Nat := [l.length % 256]

/-- A sample filesystem: the index at path token `p` has modification time
`10 * p` and a single object `(100 + p, 5 * p)`. -/
def sampleFs (p : Nat) : Except Nat IndexData := .ok ⟨some (10 * p), [(100 + p, 5 * p)]⟩

/-- A sample interruption flag that is never set. -/
def neverInterrupt (_ : Nat) : Bool := false

/-- A sample interruption flag observed set at its second load (load 1). -/
def interruptAtLoad1 (t : Nat) : Bool := t == 1

/-- The deduplicated entry list a run of the writer on the single input
path `1` over `sampleFs` produces. -/
def sampleEntries1 : List Entry := processEntries [⟨101, 0, 5, 10⟩]

/-- The pre-trailer byte stream of that run: header, chunk table, chunk
bodies. -/
def sampleBody : List Nat :=
  (write_header (chunkPlan .sha1 ([1].insertionSort (· ≤ ·)) sampleEntries1).length
      ([1].insertionSort (· ≤ ·)).length .sha1).1 ++
    tocBytes (chunkPlan .sha1 ([1].insertionSort (· ≤ ·)) sampleEntries1) ++
    (chunkBodies .sha1 ([1].insertionSort (· ≤ ·)) sampleEntries1).flatten

/-- Two concrete entries sharing an object id but with different source
mtimes (the dedup tie-break scenario of the spec). -/
def dupEntries : List Entry := [⟨5, 0, 100, 10⟩, ⟨5, 1, 200, 20⟩]

/-- Two concrete entries, one with an offset just above the 31-bit range
and one at exactly the threshold (the offset-overflow scenario of the
spec). -/
def overflowEntries : List Entry := [⟨1, 0, 0x80000001, 5⟩, ⟨2, 3, 0x7fffffff, 5⟩]

theorem header_decode_short (data : List Nat) (k : HashKind)
    (h : data.length < 12 + k.lenInBytes) :
    header.decode data k =
      .error (.Corrupt "File is too small even for header with zero entries and smallest hash") := by
  unfold header.decode
  simp only [show 3 * 4 = 12 from rfl]
  rw [if_pos h]

theorem header_decode_bad_sig (data : List Nat) (k : HashKind)
    (hlen : 12 + k.lenInBytes ≤ data.length) (hsig : data.take 4 ≠ dircSignature) :
    header.decode data k =
      .error (.Corrupt "Signature mismatch - this doesn't claim to be a header file") := by
  unfold header.decode
  simp only [show 3 * 4 = 12 from rfl]
  rw [if_neg (by omega), if_pos hsig]

theorem header_decode_version (data : List Nat) (k : HashKind)
    (hlen : 12 + k.lenInBytes ≤ data.length) (hsig : data.take 4 = dircSignature) :
    (∀ v, versionOf (read_u32 ((data.drop 4).take 4)) = some v →
      header.decode data k =
        .ok (v, read_u32 (((data.drop 4).drop 4).take 4), ((data.drop 4).drop 4).drop 4)) ∧
    (versionOf (read_u32 ((data.drop 4).take 4)) = none →
      header.decode data k =
        .error (.UnsupportedVersion (read_u32 ((data.drop 4).take 4)))) := by
  unfold header.decode
  simp only [show 3 * 4 = 12 from rfl]
  rw [if_neg (by omega), if_neg (by simp [hsig])]
  constructor
  · intro v hv
    match hn : read_u32 ((data.drop 4).take 4) with
    | 0 => simp [versionOf, hn] at hv
    | 1 => simp [versionOf, hn] at hv
    | 2 => simp only [versionOf, hn] at hv; rw [Option.some.inj hv]
    | 3 => simp only [versionOf, hn] at hv; rw [Option.some.inj hv]
    | 4 => simp only [versionOf, hn] at hv; rw [Option.some.inj hv]
    | (m + 5) => simp [versionOf, hn] at hv
  · intro hv
    match hn : read_u32 ((data.drop 4).take 4) with
    | 0 => rfl
    | 1 => rfl
    | 2 => simp [versionOf, hn] at hv
    | 3 => simp [versionOf, hn] at hv
    | 4 => simp [versionOf, hn] at hv
    | (m + 5) => rfl

/-- C4: `header::decode` returns a `Corrupt` error with a static message when
the buffer is shorter than 12 bytes plus the hash width or the first 4 bytes
are not `"DIRC"`; otherwise it maps big-endian version 2/3/4 to the
enumerated version (any other version yields `UnsupportedVersion` carrying
that number) and on success returns the big-endian entry count taken from
bytes 8..12. -/
theorem header_decode_full_characterization (data : List Nat) (k : HashKind) :
    (data.length < 12 + k.lenInBytes →
      header.decode data k =
        .error (.Corrupt "File is too small even for header with zero entries and smallest hash")) ∧
    (12 + k.lenInBytes ≤ data.length → data.take 4 ≠ dircSignature →
      header.decode data k =
        .error (.Corrupt "Signature mismatch - this doesn't claim to be a header file")) ∧
    (12 + k.lenInBytes ≤ data.length → data.take 4 = dircSignature →
      (∀ v, versionOf (read_u32 ((data.drop 4).take 4)) = some v →
        header.decode data k = .ok (v, read_u32 ((data.drop 8).take 4), data.drop 12)) ∧
      (versionOf (read_u32 ((data.drop 4).take 4)) = none →
        header.decode data k =
          .error (.UnsupportedVersion (read_u32 ((data.drop 4).take 4))))) := by
  refine ⟨header_decode_short data k, header_decode_bad_sig data k, ?_⟩
  intro hlen hsig
  have h := header_decode_version data k hlen hsig
  simpa [List.drop_drop] using h

theorem header_decode_full_characterization_witness :
    header.decode sampleIndexBytes .sha1 = .ok (.V2, 7, List.replicate 20 0) := by
  have h := ((header_decode_full_characterization sampleIndexBytes .sha1).2.2
      (by decide) (by decide)).1 .V2 (by decide)
  exact h.trans (by decide)

/-- C10: whenever `header::decode` succeeds, the remainder it returns is the
input minus its first 12 bytes (the trailing hash-width bytes are required
to exist by the length check but are not consumed). -/
theorem header_decode_consumes_exactly_12_bytes (data : List Nat) (k : HashKind)
    (v : IndexVersion) (n : Nat) (rest : List Nat)
    (h : header.decode data k = .ok (v, n, rest)) :
    rest = data.drop 12 ∧ 12 + k.lenInBytes ≤ data.length := by
  unfold header.decode at h
  simp only [show 3 * 4 = 12 from rfl] at h
  split at h
  · exact absurd h (by simp)
  · next hlen =>
    split at h
    · exact absurd h (by simp)
    · split at h <;>
        first
          | (injection h with h1
             rw [Prod.mk.injEq, Prod.mk.injEq] at h1
             refine ⟨?_, by omega⟩
             rw [← h1.2.2]
             simp [List.drop_drop])
          | simp at h

theorem header_decode_consumes_exactly_12_bytes_witness :
    List.replicate 20 0 = sampleIndexBytes.drop 12 ∧
      12 + HashKind.lenInBytes .sha1 ≤ sampleIndexBytes.length :=
  header_decode_consumes_exactly_12_bytes sampleIndexBytes .sha1 .V2 7
    (List.replicate 20 0) (by decide)

/-- C3: refuted on the code as written — `State::from_bytes` reaches a
`todo!` placeholder (a panic) on every input whose header decodes
successfully, so it does not always "return a parsed in-memory index state
or a structured error".  This evaluates the model at such an input. -/
theorem state_from_bytes_panics_on_valid_header :
    State.from_bytes validHeaderBytes 0 .sha1 = .panics "not yet implemented" := by decide

theorem natBE_length (w : Nat) : ∀ n, (natBE w n).length = w := by
  induction w with
  | zero => intro n; rfl
  | succ w ih => intro n; simp [natBE, ih]

/-- C7: `write_header` emits exactly 12 bytes — the signature `"MIDX"`, a
version byte 1, a hash-kind byte, the chunk-count byte, a reserved 0 byte
and the big-endian u32 number of packs — and returns 12. -/
theorem write_header_layout (n k : Nat) (h : HashKind) (hn : n < 256) :
    write_header n k h = (midxSignature ++ [1, h.toByte, n, 0] ++ natBE 4 k, 12) ∧
      (write_header n k h).1.length = 12 := by
  constructor
  · unfold write_header
    rw [Nat.mod_eq_of_lt hn]
    rfl
  · unfold write_header
    simp [midxSignature, natBE_length]

theorem write_header_layout_witness :
    write_header 5 3 .sha1 = (midxSignature ++ [1, HashKind.toByte .sha1, 5, 0] ++ natBE 4 3, 12) ∧
      (write_header 5 3 .sha1).1.length = 12 :=
  write_header_layout 5 3 .sha1 (by decide)

theorem writeChunksGo_ok (si : Nat → Bool) :
    ∀ (bodies : List (List Nat)) (tick : Nat) (s s' : Sink),
      writeChunksGo si tick s bodies = (.ok (), s') →
      s' = ⟨s.raw ++ bodies.flatten, s.hashed ++ bodies.flatten⟩ := by
  intro bodies
  induction bodies with
  | nil =>
    intro tick s s' h
    injection h with _ h2
    simp [← h2]
  | cons b rest ih =>
    intro tick s s' h
    unfold writeChunksGo at h
    split at h
    · exact absurd (congrArg Prod.fst h) (by simp)
    · have := ih (tick + 1) (writeHashed s b) s' h
      simp [this, writeHashed, List.append_assoc]

/-- C6: on a successful write the returned checksum is the digest of
exactly the bytes written before the trailer (header, chunk table, chunk
bodies — all observed by the hasher wrapped around the sink, never reset),
and that digest is appended verbatim as the final bytes of the file without
passing through the hasher. -/
theorem checksum_covers_all_bytes_and_trails (H : List Nat → List Nat)
    (fs : Nat → Except Nat IndexData) (si : Nat → Bool) (object_hash : HashKind)
    (index_paths : List Nat) (c bytes : List Nat)
    (h : writeFromIndexPaths H fs si object_hash index_paths = (.ok c, bytes)) :
    ∃ entries body,
      collectPhase fs si (index_paths.insertionSort (· ≤ ·)) = .ok entries ∧
      body =
        (write_header
            (chunkPlan object_hash (index_paths.insertionSort (· ≤ ·)) entries).length
            (index_paths.insertionSort (· ≤ ·)).length object_hash).1 ++
          tocBytes (chunkPlan object_hash (index_paths.insertionSort (· ≤ ·)) entries) ++
          (chunkBodies object_hash (index_paths.insertionSort (· ≤ ·)) entries).flatten ∧
      c = H body ∧ bytes = body ++ c := by
  simp only [writeFromIndexPaths] at h
  split at h
  · exact absurd (congrArg Prod.fst h) (by simp)
  · rename_i entries hcp
    split at h
    · exact absurd (congrArg Prod.fst h) (by simp)
    · rename_i a s' hwc
      have hs' := writeChunksGo_ok si _ _ _ _ hwc
      have hc : c = H s'.hashed := by
        have h1 := congrArg Prod.fst h
        simp only [Prod.fst] at h1
        exact (Except.ok.inj h1).symm
      have hb : bytes = s'.raw ++ H s'.hashed := by
        have h2 := congrArg Prod.snd h
        simp only [Prod.snd, writeRawOnly] at h2
        exact h2.symm
      refine ⟨entries, s'.hashed, hcp, ?_, hc, ?_⟩
      · rw [hs']
        simp [writeHashed, List.append_assoc]
      · rw [hb, hc, hs']
        simp [writeHashed]

theorem writeChunksGo_never (si : Nat → Bool) (hsi : ∀ t, si t = false) :
    ∀ (bodies : List (List Nat)) (tick : Nat) (s : Sink),
      writeChunksGo si tick s bodies = (.ok (), ⟨s.raw ++ bodies.flatten, s.hashed ++ bodies.flatten⟩) := by
  intro bodies
  induction bodies with
  | nil =>
    intro tick s
    simp [writeChunksGo]
  | cons b rest ih =>
    intro tick s
    rw [writeChunksGo, hsi tick]
    simp only [Bool.false_eq_true, if_false, ih]
    simp [writeHashed, List.append_assoc]

theorem checksum_covers_all_bytes_and_trails_witness :
    ∃ entries body,
      collectPhase sampleFs neverInterrupt ([1].insertionSort (· ≤ ·)) = .ok entries ∧
      body =
        (write_header (chunkPlan .sha1 ([1].insertionSort (· ≤ ·)) entries).length
            ([1].insertionSort (· ≤ ·)).length .sha1).1 ++
          tocBytes (chunkPlan .sha1 ([1].insertionSort (· ≤ ·)) entries) ++
          (chunkBodies .sha1 ([1].insertionSort (· ≤ ·)) entries).flatten ∧
      sampleHash sampleBody = sampleHash body ∧
      sampleBody ++ sampleHash sampleBody = body ++ sampleHash sampleBody :=
  checksum_covers_all_bytes_and_trails sampleHash sampleFs neverInterrupt .sha1 [1]
    (sampleHash sampleBody) (sampleBody ++ sampleHash sampleBody) (by
      have hcp : collectPhase sampleFs neverInterrupt ([1].insertionSort (· ≤ ·)) =
          .ok sampleEntries1 := by decide
      simp only [writeFromIndexPaths]
      rw [hcp]
      dsimp only
      rw [writeChunksGo_never neverInterrupt (fun _ => rfl)]
      simp [writeHashed, writeRawOnly, sampleBody, List.append_assoc])

theorem collectGo_ok_struct (fs : Nat → Except Nat IndexData) (si : Nat → Bool) :
    ∀ (ps : List Nat) (i0 : Nat) (l : List Entry),
      collectGo fs si i0 ps = .ok l →
      ∃ ds : List IndexData, ds.length = ps.length ∧
        (∀ (j : Nat) (d : IndexData), ds[j]? = some d → ∃ p : Nat, ps[j]? = some p ∧ fs p = .ok d) ∧
        l = expectedEntries i0 ds := by
  intro ps
  induction ps with
  | nil =>
    intro i0 l h
    refine ⟨[], rfl, ?_, ?_⟩
    · intro j d hd
      simp at hd
    · exact (Except.ok.inj h).symm
  | cons p rest ih =>
    intro i0 l h
    unfold collectGo at h
    split at h
    · simp at h
    · rename_i d hfs
      split at h
      · simp at h
      · split at h
        · simp at h
        · rename_i tail htail
          obtain ⟨ds, hlen, hget, hexp⟩ := ih (i0 + 1) tail htail
          refine ⟨d :: ds, by simp [hlen], ?_, ?_⟩
          · intro j e hd
            cases j with
            | zero =>
              simp at hd
              subst hd
              exact ⟨p, by simp, hfs⟩
            | succ j =>
              simp only [List.getElem?_cons_succ] at hd
              obtain ⟨q, hq1, hq2⟩ := hget j e hd
              exact ⟨q, by simpa using hq1, hq2⟩
          · rw [← Except.ok.inj h, hexp]
            rfl

theorem collectGo_ok_total (fs : Nat → Except Nat IndexData) (si : Nat → Bool) :
    ∀ (ps : List Nat) (i0 : Nat),
      (∀ p ∈ ps, ∃ d, fs p = .ok d) →
      (∀ j, j < ps.length → si (i0 + j) = false) →
      ∃ l, collectGo fs si i0 ps = .ok l := by
  intro ps
  induction ps with
  | nil =>
    intro i0 _ _
    exact ⟨[], rfl⟩
  | cons p rest ih =>
    intro i0 hfs hsi
    obtain ⟨d, hd⟩ := hfs p (by simp)
    have hsi0 : si i0 = false := by simpa using hsi 0 (by simp)
    obtain ⟨tail, htail⟩ :=
      ih (i0 + 1) (fun q hq => hfs q (by simp [hq])) (fun j hj => by
        have h2 := hsi (j + 1) (by simpa using Nat.succ_lt_succ hj)
        rwa [show i0 + 1 + j = i0 + (j + 1) from by omega])
    exact ⟨collectBatch i0 d ++ tail, by simp [collectGo, hd, hsi0, htail]⟩

theorem mem_expectedEntries :
    ∀ (ds : List IndexData) (i0 j : Nat) (d : IndexData), ds[j]? = some d →
      ∀ o ∈ d.objects, (⟨o.1, i0 + j, o.2, d.mtime.getD 0⟩ : Entry) ∈ expectedEntries i0 ds := by
  intro ds
  induction ds with
  | nil =>
    intro i0 j d hd
    simp at hd
  | cons e rest ih =>
    intro i0 j d hd o ho
    cases j with
    | zero =>
      simp at hd
      subst hd
      exact List.mem_append_left _ (List.mem_map.mpr ⟨o, ho, by simp⟩)
    | succ j =>
      simp only [List.getElem?_cons_succ] at hd
      have := ih (i0 + 1) j d hd o ho
      exact List.mem_append_right _ (by
        rwa [show i0 + 1 + j = i0 + (j + 1) from by omega] at this)

/-- C8: during collection, every entry produced from the index at position
`j` of the lexicographically sorted path list is tagged with
`pack_index = j` and with that file's modification time, the Unix epoch
standing in when the mtime is unavailable; and retrieving the mtime never
fails the operation — success is guaranteed by openable indices and an
unset flag alone, whether or not any mtime is present. -/
theorem collection_tags_pack_index_and_mtime (fs : Nat → Except Nat IndexData)
    (si : Nat → Bool) (index_paths : List Nat) :
    (∀ l, collectGo fs si 0 (index_paths.insertionSort (· ≤ ·)) = .ok l →
      ∃ ds : List IndexData,
        ds.length = (index_paths.insertionSort (· ≤ ·)).length ∧
        (∀ (j : Nat) (d : IndexData), ds[j]? = some d →
          ∃ p : Nat, (index_paths.insertionSort (· ≤ ·))[j]? = some p ∧ fs p = .ok d) ∧
        l = expectedEntries 0 ds ∧
        (∀ (j : Nat) (d : IndexData), ds[j]? = some d → ∀ o ∈ d.objects,
          (⟨o.1, j, o.2, d.mtime.getD 0⟩ : Entry) ∈ l)) ∧
    ((∀ p ∈ index_paths, ∃ d, fs p = .ok d) →
      (∀ j, j < index_paths.length → si j = false) →
      ∃ l, collectGo fs si 0 (index_paths.insertionSort (· ≤ ·)) = .ok l) := by
  constructor
  · intro l h
    obtain ⟨ds, hlen, hget, hexp⟩ := collectGo_ok_struct fs si _ 0 l h
    refine ⟨ds, hlen, hget, hexp, ?_⟩
    intro j d hd o ho
    have := mem_expectedEntries ds 0 j d hd o ho
    rw [hexp]
    simpa using this
  · intro hfs hsi
    refine collectGo_ok_total fs si _ 0 (fun p hp =>
      hfs p ((List.perm_insertionSort _ index_paths).mem_iff.mp hp)) (fun j hj => ?_)
    have hlen : (index_paths.insertionSort (· ≤ ·)).length = index_paths.length :=
      (List.perm_insertionSort _ index_paths).length_eq
    simpa using hsi j (by omega)

theorem collection_tags_pack_index_and_mtime_witness :
    (∃ ds : List IndexData,
        ds.length = (([2, 1] : List Nat).insertionSort (· ≤ ·)).length ∧
        (∀ (j : Nat) (d : IndexData), ds[j]? = some d →
          ∃ p : Nat, (([2, 1] : List Nat).insertionSort (· ≤ ·))[j]? = some p ∧ sampleFs p = .ok d) ∧
        ([⟨101, 0, 5, 10⟩, ⟨102, 1, 10, 20⟩] : List Entry) = expectedEntries 0 ds ∧
        (∀ (j : Nat) (d : IndexData), ds[j]? = some d → ∀ o ∈ d.objects,
          (⟨o.1, j, o.2, d.mtime.getD 0⟩ : Entry) ∈
            ([⟨101, 0, 5, 10⟩, ⟨102, 1, 10, 20⟩] : List Entry))) ∧
    (∃ l, collectGo sampleFs neverInterrupt 0 (([2, 1] : List Nat).insertionSort (· ≤ ·)) = .ok l) :=
  ⟨(collection_tags_pack_index_and_mtime sampleFs neverInterrupt [2, 1]).1
      [⟨101, 0, 5, 10⟩, ⟨102, 1, 10, 20⟩] (by decide),
   (collection_tags_pack_index_and_mtime sampleFs neverInterrupt [2, 1]).2
      (fun p _ => ⟨⟨some (10 * p), [(100 + p, 5 * p)]⟩, rfl⟩) (fun j _ => rfl)⟩

theorem collectGo_interrupted (fs : Nat → Except Nat IndexData) (si : Nat → Bool) :
    ∀ (ps : List Nat) (i0 k : Nat),
      k < ps.length →
      (∀ p ∈ ps, ∃ d, fs p = .ok d) →
      (∀ j, j < k → si (i0 + j) = false) →
      si (i0 + k) = true →
      collectGo fs si i0 ps = .error .Interrupted := by
  intro ps
  induction ps with
  | nil =>
    intro i0 k hk
    simp at hk
  | cons p rest ih =>
    intro i0 k hk hfs hlt hk2
    obtain ⟨d, hd⟩ := hfs p (by simp)
    cases k with
    | zero =>
      have h0 : si i0 = true := by simpa using hk2
      simp [collectGo, hd, h0]
    | succ k =>
      have h0 : si i0 = false := by simpa using hlt 0 (by omega)
      have hrest : collectGo fs si (i0 + 1) rest = .error .Interrupted :=
        ih (i0 + 1) k (by simpa using Nat.lt_of_succ_lt_succ hk)
          (fun q hq => hfs q (by simp [hq]))
          (fun j hj => by
            have h2 := hlt (j + 1) (by omega)
            rwa [show i0 + 1 + j = i0 + (j + 1) from by omega])
          (by rwa [show i0 + 1 + k = i0 + (k + 1) from by omega])
      simp [collectGo, hd, h0, hrest]

/-- C2: if the cancellation flag is first observed set at one of the
collection-phase checkpoints — the per-file boundaries (loads `0..n-1`) or
the post-sort/dedup check (load `n`) — then `write_from_index_paths`
returns the `Interrupted` error and zero bytes have reached the output
sink; the write phase (header, chunk table, chunk bodies) only starts once
the final collection-phase check has passed. -/
theorem write_interrupted_in_collection_writes_nothing (H : List Nat → List Nat)
    (fs : Nat → Except Nat IndexData) (si : Nat → Bool) (object_hash : HashKind)
    (index_paths : List Nat) (k : Nat)
    (hk : k ≤ (index_paths.insertionSort (· ≤ ·)).length)
    (hfs : ∀ p ∈ index_paths, ∃ d, fs p = .ok d)
    (hbefore : ∀ j, j < k → si j = false)
    (hsi : si k = true) :
    writeFromIndexPaths H fs si object_hash index_paths = (.error .Interrupted, []) := by
  have hfs' : ∀ p ∈ index_paths.insertionSort (· ≤ ·), ∃ d, fs p = .ok d := fun p hp =>
    hfs p ((List.perm_insertionSort _ index_paths).mem_iff.mp hp)
  have hcp : collectPhase fs si (index_paths.insertionSort (· ≤ ·)) = .error .Interrupted := by
    rcases Nat.lt_or_ge k (index_paths.insertionSort (· ≤ ·)).length with hlt | hge
    · have hint := collectGo_interrupted fs si _ 0 k hlt hfs'
        (fun j hj => by simpa using hbefore j hj) (by simpa using hsi)
      simp [collectPhase, hint]
    · have hkeq : k = (index_paths.insertionSort (· ≤ ·)).length := le_antisymm hk hge
      obtain ⟨l, hl⟩ := collectGo_ok_total fs si _ 0 hfs'
        (fun j hj => by simpa using hbefore j (by omega))
      rw [collectPhase, hl]
      simp [← hkeq, hsi]
  simp [writeFromIndexPaths, hcp]

theorem write_interrupted_in_collection_writes_nothing_witness :
    writeFromIndexPaths sampleHash sampleFs interruptAtLoad1 .sha1 [3, 1, 2] =
      (.error .Interrupted, []) :=
  write_interrupted_in_collection_writes_nothing sampleHash sampleFs interruptAtLoad1 .sha1
    [3, 1, 2] 1 (by decide)
    (fun p _ => ⟨⟨some (10 * p), [(100 + p, 5 * p)]⟩, rfl⟩)
    (fun j hj => by
      have : j = 0 := by omega
      subst this
      rfl)
    (by decide)

/-- C9: the writer's output — the full byte stream and the returned
checksum — is the same for every permutation of the input path list,
because the paths are sorted internally before `pack_index` assignment and
collection. -/
theorem write_output_independent_of_path_order (H : List Nat → List Nat)
    (fs : Nat → Except Nat IndexData) (si : Nat → Bool) (object_hash : HashKind)
    (l1 l2 : List Nat) (hperm : l1.Perm l2) :
    writeFromIndexPaths H fs si object_hash l1 = writeFromIndexPaths H fs si object_hash l2 := by
  have hsort : l1.insertionSort (· ≤ ·) = l2.insertionSort (· ≤ ·) :=
    List.eq_of_perm_of_sorted
      ((List.perm_insertionSort _ l1).trans (hperm.trans (List.perm_insertionSort _ l2).symm))
      (List.sorted_insertionSort _ l1) (List.sorted_insertionSort _ l2)
  unfold writeFromIndexPaths
  rw [hsort]

theorem write_output_independent_of_path_order_witness :
    writeFromIndexPaths sampleHash sampleFs neverInterrupt .sha1 [2, 1] =
      writeFromIndexPaths sampleHash sampleFs neverInterrupt .sha1 [1, 2] :=
  write_output_independent_of_path_order sampleHash sampleFs neverInterrupt .sha1
    [2, 1] [1, 2] (by decide)

theorem offsetsGo_false (l : List Entry) : ∀ k : Nat,
    offsetsGo false k l = l.map fun e => (e.pack_index, e.pack_offset) := by
  induction l with
  | nil => intro k; rfl
  | cons e rest ih =>
    intro k
    simp [offsetsGo, ih]

theorem largeCount_nil : largeCount [] = 0 := rfl

theorem largeCount_cons (e : Entry) (l : List Entry) :
    largeCount (e :: l) =
      (if LARGE_OFFSET_THRESHOLD < e.pack_offset then 1 else 0) + largeCount l := by
  unfold largeCount
  rw [List.countP_cons]
  by_cases he : LARGE_OFFSET_THRESHOLD < e.pack_offset
  · simp [he]
    omega
  · simp [he]


theorem offsetsGo_cons_large (e : Entry) (rest : List Entry) (k : Nat)
    (he : LARGE_OFFSET_THRESHOLD < e.pack_offset) :
    offsetsGo true k (e :: rest) =
      (e.pack_index, 0x80000000 + k) :: offsetsGo true (k + 1) rest := by
  simp [offsetsGo, he]

theorem offsetsGo_cons_small (e : Entry) (rest : List Entry) (k : Nat)
    (he : ¬LARGE_OFFSET_THRESHOLD < e.pack_offset) :
    offsetsGo true k (e :: rest) =
      (e.pack_index, e.pack_offset) :: offsetsGo true k rest := by
  simp [offsetsGo, he]

theorem offsetsGo_true_getElem (l : List Entry) : ∀ (k i : Nat) (hi : i < l.length),
    ((offsetsGo true k l).map (fun p => p.2))[i]? =
      some (if LARGE_OFFSET_THRESHOLD < (l.get ⟨i, hi⟩).pack_offset
            then 0x80000000 + (k + largeCount (l.take i))
            else (l.get ⟨i, hi⟩).pack_offset) := by
  induction l with
  | nil =>
    intro k i hi
    simp at hi
  | cons e rest ih =>
    intro k i hi
    by_cases he : LARGE_OFFSET_THRESHOLD < e.pack_offset
    · rw [offsetsGo_cons_large e rest k he]
      cases i with
      | zero => simp [he, largeCount_nil]
      | succ i =>
        have hi2 : i < rest.length := by simpa using Nat.lt_of_succ_lt_succ hi
        have step := ih (k + 1) i hi2
        simp only [List.map_cons, List.getElem?_cons_succ, List.take_succ_cons]
        rw [step, largeCount_cons, if_pos he]
        have hget : (e :: rest).get ⟨i + 1, hi⟩ = rest.get ⟨i, hi2⟩ := rfl
        rw [hget]
        by_cases hc : LARGE_OFFSET_THRESHOLD < (rest.get ⟨i, hi2⟩).pack_offset
        · rw [if_pos hc, if_pos hc]
          congr 1
          omega
        · rw [if_neg hc, if_neg hc]
    · rw [offsetsGo_cons_small e rest k he]
      cases i with
      | zero => simp [he]
      | succ i =>
        have hi2 : i < rest.length := by simpa using Nat.lt_of_succ_lt_succ hi
        have step := ih k i hi2
        simp only [List.map_cons, List.getElem?_cons_succ, List.take_succ_cons]
        rw [step, largeCount_cons, if_neg he]
        have hget : (e :: rest).get ⟨i + 1, hi⟩ = rest.get ⟨i, hi2⟩ := rfl
        rw [hget]
        by_cases hc : LARGE_OFFSET_THRESHOLD < (rest.get ⟨i, hi2⟩).pack_offset
        · rw [if_pos hc, if_pos hc]
          congr 1
          omega
        · rw [if_neg hc, if_neg hc]

theorem largeOffsetsVals_cons_large (e : Entry) (rest : List Entry)
    (he : LARGE_OFFSET_THRESHOLD < e.pack_offset) :
    largeOffsetsVals (e :: rest) = e.pack_offset :: largeOffsetsVals rest := by
  simp [largeOffsetsVals, List.filter_cons, he]

theorem largeOffsetsVals_cons_small (e : Entry) (rest : List Entry)
    (he : ¬LARGE_OFFSET_THRESHOLD < e.pack_offset) :
    largeOffsetsVals (e :: rest) = largeOffsetsVals rest := by
  simp [largeOffsetsVals, List.filter_cons, he]

theorem largeOffsetsVals_getElem (l : List Entry) : ∀ (i : Nat) (hi : i < l.length),
    LARGE_OFFSET_THRESHOLD < (l.get ⟨i, hi⟩).pack_offset →
    (largeOffsetsVals l)[largeCount (l.take i)]? = some (l.get ⟨i, hi⟩).pack_offset := by
  induction l with
  | nil =>
    intro i hi
    simp at hi
  | cons e rest ih =>
    intro i hi hlarge
    by_cases he : LARGE_OFFSET_THRESHOLD < e.pack_offset
    · rw [largeOffsetsVals_cons_large e rest he]
      cases i with
      | zero => simp [largeCount_nil]
      | succ i =>
        have hi2 : i < rest.length := by simpa using Nat.lt_of_succ_lt_succ hi
        have step := ih i hi2 (by simpa using hlarge)
        rw [List.take_succ_cons, largeCount_cons, if_pos he,
          show 1 + largeCount (rest.take i) = largeCount (rest.take i) + 1 from by omega,
          List.getElem?_cons_succ]
        exact step
    · cases i with
      | zero => exact absurd (by simpa using hlarge) he
      | succ i =>
        have hi2 : i < rest.length := by simpa using Nat.lt_of_succ_lt_succ hi
        have step := ih i hi2 (by simpa using hlarge)
        rw [largeOffsetsVals_cons_small e rest he, List.take_succ_cons, largeCount_cons,
          if_neg he]
        simpa using step

theorem flatten_natBE8_segment (vs : List Nat) : ∀ (k v : Nat), vs[k]? = some v →
    (((vs.map (natBE 8)).flatten).drop (8 * k)).take 8 = natBE 8 v := by
  induction vs with
  | nil =>
    intro k v h
    simp at h
  | cons a rest ih =>
    intro k v h
    cases k with
    | zero =>
      simp only [List.getElem?_cons_zero, Option.some.injEq] at h
      subst h
      simp only [List.map_cons, List.flatten_cons, Nat.mul_zero, List.drop_zero]
      exact List.take_left' (natBE_length 8 _)
    | succ k =>
      simp only [List.getElem?_cons_succ] at h
      simp only [List.map_cons, List.flatten_cons]
      rw [show 8 * (k + 1) = (natBE 8 a).length + 8 * k from by rw [natBE_length]; omega,
        List.drop_append]
      exact ih k v h

theorem num_large_offsets_isSome (entries : List Entry) :
    (num_large_offsets entries).isSome = true ↔
      ∃ e ∈ entries, LARGE_OFFSET_THRESHOLD < e.pack_offset := by
  unfold num_large_offsets
  by_cases h : entries.countP (fun e => decide (LARGE_OFFSET_THRESHOLD < e.pack_offset)) = 0
  · simp only [h, if_true, Option.isSome_none]
    constructor
    · intro hfalse
      cases hfalse
    · intro ⟨e, he, hlt⟩
      have : 0 < entries.countP (fun e => decide (LARGE_OFFSET_THRESHOLD < e.pack_offset)) :=
        List.countP_pos_iff.mpr ⟨e, he, by simpa using hlt⟩
      omega
  · simp only [h, if_false, Option.isSome_some, true_iff]
    have : 0 < entries.countP (fun e => decide (LARGE_OFFSET_THRESHOLD < e.pack_offset)) := by
      omega
    obtain ⟨e, he, hlt⟩ := List.countP_pos_iff.mp this
    exact ⟨e, he, by simpa using hlt⟩

theorem chunkPlan_has_loff_iff (k : HashKind) (names : List Nat) (entries : List Entry) :
    (∃ pr ∈ chunkPlan k names entries, pr.1 = loffId) ↔
      (num_large_offsets entries).isSome = true := by
  cases hnlo : num_large_offsets entries with
  | none =>
    simp only [chunkPlan, hnlo, List.append_nil, Option.isSome_none]
    constructor
    · intro ⟨pr, hpr, hid⟩
      simp only [List.mem_cons, List.mem_singleton, List.not_mem_nil, or_false] at hpr
      rcases hpr with h | h | h | h <;> rw [h] at hid <;>
        simp [pnamId, oidfId, oidlId, ooffId, loffId] at hid
    · intro hfalse
      cases hfalse
  | some m =>
    simp only [chunkPlan, hnlo, Option.isSome_some, iff_true]
    exact ⟨(loffId, 8 * m), by simp, rfl⟩

/-- C5: the large-offsets chunk is planned iff some entry's offset exceeds
the 31-bit range; a fitting offset is stored as its literal value (high bit
clear) and contributes nothing to the large-offset count, while the slot of
each overflowing entry holds `2^31 + i` (high bit set), where `i` indexes
the 8-byte big-endian value of that entry's offset in the large-offsets
chunk. -/
theorem large_offsets_iff_offset_exceeds_31_bits (k : HashKind) (names : List Nat)
    (entries : List Entry) :
    ((num_large_offsets entries).isSome = true ↔
      ∃ e ∈ entries, LARGE_OFFSET_THRESHOLD < e.pack_offset) ∧
    ((∃ pr ∈ chunkPlan k names entries, pr.1 = loffId) ↔
      ∃ e ∈ entries, LARGE_OFFSET_THRESHOLD < e.pack_offset) ∧
    (∀ i (hi : i < entries.length),
      ((entries.get ⟨i, hi⟩).pack_offset ≤ LARGE_OFFSET_THRESHOLD →
        (∀ lo : Bool, (offsetSlots lo entries)[i]? = some (entries.get ⟨i, hi⟩).pack_offset) ∧
        (entries.get ⟨i, hi⟩).pack_offset < 2 ^ 31 ∧
        largeCount (entries.take (i + 1)) = largeCount (entries.take i)) ∧
      (LARGE_OFFSET_THRESHOLD < (entries.get ⟨i, hi⟩).pack_offset →
        (num_large_offsets entries).isSome = true ∧
        (offsetSlots true entries)[i]? = some (2 ^ 31 + largeCount (entries.take i)) ∧
        (largeOffsetsVals entries)[largeCount (entries.take i)]? =
          some (entries.get ⟨i, hi⟩).pack_offset ∧
        ((largeOffsetsChunk entries).drop (8 * largeCount (entries.take i))).take 8 =
          natBE 8 (entries.get ⟨i, hi⟩).pack_offset)) := by
  refine ⟨num_large_offsets_isSome entries,
    (chunkPlan_has_loff_iff k names entries).trans (num_large_offsets_isSome entries), ?_⟩
  intro i hi
  constructor
  · intro hsmall
    refine ⟨?_, ?_, ?_⟩
    · intro lo
      cases lo with
      | false =>
        unfold offsetSlots
        rw [offsetsGo_false]
        rw [List.map_map, List.getElem?_map, List.getElem?_eq_getElem hi]
        rfl
      | true =>
        unfold offsetSlots
        rw [offsetsGo_true_getElem entries 0 i hi, if_neg (by omega)]
    · have : LARGE_OFFSET_THRESHOLD = 2 ^ 31 - 1 := by decide
      omega
    · have := @List.take_succ Entry entries i
      rw [this, List.getElem?_eq_getElem hi]
      unfold largeCount
      rw [List.countP_append]
      simp [Nat.not_lt.mpr hsmall]
      exact hsmall
  · intro hlarge
    have hsome : (num_large_offsets entries).isSome = true :=
      (num_large_offsets_isSome entries).mpr ⟨entries.get ⟨i, hi⟩, entries.get_mem _ _, hlarge⟩
    refine ⟨hsome, ?_, largeOffsetsVals_getElem entries i hi hlarge, ?_⟩
    · unfold offsetSlots
      rw [offsetsGo_true_getElem entries 0 i hi, if_pos hlarge]
      congr 2
      omega
    · exact flatten_natBE8_segment (largeOffsetsVals entries) _ _
        (largeOffsetsVals_getElem entries i hi hlarge)

theorem large_offsets_iff_offset_exceeds_31_bits_witness :
    ((offsetSlots true overflowEntries)[0]? = some (2 ^ 31) ∧
      (largeOffsetsVals overflowEntries)[0]? = some 0x80000001 ∧
      ((largeOffsetsChunk overflowEntries).drop 0).take 8 = natBE 8 0x80000001) ∧
    ((offsetSlots true overflowEntries)[1]? = some 0x7fffffff ∧
      largeCount (overflowEntries.take 2) = largeCount (overflowEntries.take 1)) := by
  have h := large_offsets_iff_offset_exceeds_31_bits .sha1 [0] overflowEntries
  have hlarge := (h.2.2 0 (by decide)).2 (by decide)
  have hsmall := (h.2.2 1 (by decide)).1 (by decide)
  refine ⟨⟨?_, ?_, ?_⟩, ?_, ?_⟩
  · exact hlarge.2.1.trans (by decide)
  · exact hlarge.2.2.1.trans (by decide)
  · have := hlarge.2.2.2
    rwa [show 8 * largeCount (overflowEntries.take 0) = 0 from by decide] at this
  · exact (hsmall.1 true).trans (by decide)
  · exact hsmall.2.2

theorem entryLe_iff (a b : Entry) :
    entryLe a b ↔ a.id < b.id ∨ (a.id = b.id ∧ (b.index_mtime < a.index_mtime ∨
      (a.index_mtime = b.index_mtime ∧ a.pack_index ≤ b.pack_index))) := by
  unfold entryLe entryCmp
  rcases Nat.lt_trichotomy a.id b.id with h1 | h1 | h1
  · rw [Nat.compare_eq_lt.mpr h1]
    simp [Ordering.then]
    omega
  · rw [Nat.compare_eq_eq.mpr h1]
    rcases Nat.lt_trichotomy a.index_mtime b.index_mtime with h2 | h2 | h2
    · rw [Nat.compare_eq_lt.mpr h2]
      simp [Ordering.then, Ordering.swap]
      omega
    · rw [Nat.compare_eq_eq.mpr h2]
      rcases Nat.lt_trichotomy a.pack_index b.pack_index with h3 | h3 | h3
      · rw [Nat.compare_eq_lt.mpr h3]
        simp [Ordering.then, Ordering.swap]
        omega
      · rw [Nat.compare_eq_eq.mpr h3]
        simp [Ordering.then, Ordering.swap]
        omega
      · rw [Nat.compare_eq_gt.mpr h3]
        simp [Ordering.then, Ordering.swap]
        omega
    · rw [Nat.compare_eq_gt.mpr h2]
      simp [Ordering.then, Ordering.swap]
      omega
  · rw [Nat.compare_eq_gt.mpr h1]
    simp [Ordering.then, Ordering.swap]
    omega

theorem entryLe_refl (a : Entry) : entryLe a a := by
  rw [entryLe_iff]
  omega

instance : IsTotal Entry entryLe :=
  ⟨fun a b => by rw [entryLe_iff a b, entryLe_iff b a]; omega⟩

instance : IsTrans Entry entryLe :=
  ⟨fun a b c hab hbc => by
    rw [entryLe_iff] at hab hbc ⊢
    omega⟩

theorem dedupGo_cons_skip (prev b : Entry) (rest : List Entry) (hb : b.id = prev.id) :
    dedupGo prev (b :: rest) = dedupGo prev rest := by
  simp [dedupGo, hb]

theorem dedupGo_cons_keep (prev b : Entry) (rest : List Entry) (hb : ¬b.id = prev.id) :
    dedupGo prev (b :: rest) = b :: dedupGo b rest := by
  simp [dedupGo, hb]

theorem find?_dedupGo (x : Nat) : ∀ (l : List Entry) (prev : Entry), prev.id ≠ x →
    (dedupGo prev l).find? (fun a => a.id == x) = l.find? (fun a => a.id == x) := by
  intro l
  induction l with
  | nil =>
    intro prev h
    rfl
  | cons b rest ih =>
    intro prev h
    by_cases hb : b.id = prev.id
    · rw [dedupGo_cons_skip prev b rest hb, ih prev h,
        List.find?_cons_of_neg _ (by simp [hb, h])]
    · rw [dedupGo_cons_keep prev b rest hb]
      by_cases hbx : b.id = x
      · rw [List.find?_cons_of_pos _ (by simp [hbx]), List.find?_cons_of_pos _ (by simp [hbx])]
      · rw [List.find?_cons_of_neg _ (by simp [hbx]), List.find?_cons_of_neg _ (by simp [hbx])]
        exact ih b hbx

theorem find?_dedupByKeyId (x : Nat) (l : List Entry) :
    (dedupByKeyId l).find? (fun a => a.id == x) = l.find? (fun a => a.id == x) := by
  cases l with
  | nil => rfl
  | cons a rest =>
    rw [show dedupByKeyId (a :: rest) = a :: dedupGo a rest from rfl]
    by_cases hax : a.id = x
    · rw [List.find?_cons_of_pos _ (by simp [hax]), List.find?_cons_of_pos _ (by simp [hax])]
    · rw [List.find?_cons_of_neg _ (by simp [hax]), List.find?_cons_of_neg _ (by simp [hax])]
      exact find?_dedupGo x rest a hax

theorem find?_min_of_sorted (x : Nat) :
    ∀ (l : List Entry), l.Pairwise entryLe →
      ∀ e' ∈ l, e'.id = x →
        ∃ e, l.find? (fun a => a.id == x) = some e ∧ e ∈ l ∧ e.id = x ∧ entryLe e e' := by
  intro l
  induction l with
  | nil =>
    intro _ e' he'
    simp at he'
  | cons a rest ih =>
    intro hp e' he' hex
    by_cases hax : a.id = x
    · refine ⟨a, List.find?_cons_of_pos _ (by simp [hax]), by simp, hax, ?_⟩
      rcases List.mem_cons.mp he' with rfl | hmem
      · exact entryLe_refl _
      · exact (List.pairwise_cons.mp hp).1 e' hmem
    · have hne : e' ≠ a := fun h => hax (by rw [← h]; exact hex)
      have hmem : e' ∈ rest := by
        rcases List.mem_cons.mp he' with h | h
        · exact absurd h hne
        · exact h
      obtain ⟨e, hfind, hem, hex2, hle⟩ := ih (List.pairwise_cons.mp hp).2 e' hmem hex
      exact ⟨e, by rw [List.find?_cons_of_neg _ (by simp [hax])]; exact hfind,
        List.mem_cons_of_mem a hem, hex2, hle⟩

theorem dedupGo_subset : ∀ (l : List Entry) (prev c : Entry), c ∈ dedupGo prev l → c ∈ l := by
  intro l
  induction l with
  | nil =>
    intro prev c h
    simp [dedupGo] at h
  | cons b rest ih =>
    intro prev c h
    by_cases hb : b.id = prev.id
    · rw [dedupGo_cons_skip prev b rest hb] at h
      exact List.mem_cons_of_mem b (ih prev c h)
    · rw [dedupGo_cons_keep prev b rest hb] at h
      rcases List.mem_cons.mp h with rfl | h2
      · exact List.mem_cons_self c rest
      · exact List.mem_cons_of_mem b (ih b c h2)

theorem dedupGo_mem_gt : ∀ (l : List Entry), l.Pairwise (fun a b => a.id ≤ b.id) →
    ∀ prev : Entry, (∀ b ∈ l, prev.id ≤ b.id) → ∀ c ∈ dedupGo prev l, prev.id < c.id := by
  intro l
  induction l with
  | nil =>
    intro _ prev _ c h
    simp [dedupGo] at h
  | cons b rest ih =>
    intro hp prev hge c hc
    have hp' := List.pairwise_cons.mp hp
    by_cases hb : b.id = prev.id
    · rw [dedupGo_cons_skip prev b rest hb] at hc
      exact ih hp'.2 prev (fun b' hb' => by rw [← hb]; exact hp'.1 b' hb') c hc
    · rw [dedupGo_cons_keep prev b rest hb] at hc
      rcases List.mem_cons.mp hc with rfl | h2
      · have := hge c (List.mem_cons_self c rest)
        omega
      · have h3 := ih hp'.2 b hp'.1 c h2
        have h4 := hge b (List.mem_cons_self b rest)
        omega

theorem dedupGo_pairwise_lt : ∀ (l : List Entry), l.Pairwise (fun a b => a.id ≤ b.id) →
    ∀ prev : Entry, (dedupGo prev l).Pairwise (fun a b => a.id < b.id) := by
  intro l
  induction l with
  | nil =>
    intro _ prev
    simp [dedupGo]
  | cons b rest ih =>
    intro hp prev
    have hp' := List.pairwise_cons.mp hp
    by_cases hb : b.id = prev.id
    · rw [dedupGo_cons_skip prev b rest hb]
      exact ih hp'.2 prev
    · rw [dedupGo_cons_keep prev b rest hb]
      exact List.pairwise_cons.mpr
        ⟨fun c hc => dedupGo_mem_gt rest hp'.2 b hp'.1 c hc, ih hp'.2 b⟩

theorem sorted_id_le (l : List Entry) :
    (l.insertionSort entryLe).Pairwise (fun a b => a.id ≤ b.id) :=
  (List.sorted_insertionSort entryLe l).imp (fun hab => by rw [entryLe_iff] at hab; omega)

theorem processEntries_pairwise_ne (l : List Entry) :
    (processEntries l).Pairwise fun a b => a.id ≠ b.id := by
  unfold processEntries
  have hid := sorted_id_le l
  cases hs : l.insertionSort entryLe with
  | nil => simp [dedupByKeyId]
  | cons a rest =>
    rw [hs] at hid
    have hp' := List.pairwise_cons.mp hid
    rw [show dedupByKeyId (a :: rest) = a :: dedupGo a rest from rfl]
    refine List.pairwise_cons.mpr ⟨?_, ?_⟩
    · intro c hc
      have := dedupGo_mem_gt rest hp'.2 a hp'.1 c hc
      omega
    · exact (dedupGo_pairwise_lt rest hp'.2 a).imp (fun h => by omega)

/-- C1: after the sort (id ascending, mtime descending, `pack_index`
ascending) and the consecutive dedup by id, at most one entry per id
survives, every surviving entry comes from the input, and the survivor for
an id present in the input dominates every input entry with that id: its
source mtime is maximal, and among equal mtimes its `pack_index` — the
position of its source index in the sorted path list, so the
lexicographically earliest path — is minimal. -/
theorem multi_index_dedup_prefers_latest_mtime (l : List Entry) :
    ((processEntries l).Pairwise fun a b => a.id ≠ b.id) ∧
    (∀ e ∈ processEntries l, e ∈ l) ∧
    (∀ e' ∈ l, ∃ e, (processEntries l).find? (fun a => a.id == e'.id) = some e ∧
      e ∈ l ∧ e.id = e'.id ∧ e'.index_mtime ≤ e.index_mtime ∧
      (e.index_mtime = e'.index_mtime → e.pack_index ≤ e'.pack_index)) := by
  refine ⟨processEntries_pairwise_ne l, ?_, ?_⟩
  · intro e he
    unfold processEntries at he
    have hmem : e ∈ l.insertionSort entryLe := by
      cases hs : l.insertionSort entryLe with
      | nil =>
        rw [hs] at he
        simp [dedupByKeyId] at he
      | cons a rest =>
        rw [hs] at he
        rw [show dedupByKeyId (a :: rest) = a :: dedupGo a rest from rfl] at he
        rcases List.mem_cons.mp he with rfl | h2
        · exact List.mem_cons_self e rest
        · exact List.mem_cons_of_mem a (dedupGo_subset rest a e h2)
    exact (List.perm_insertionSort entryLe l).mem_iff.mp hmem
  · intro e' he'
    have hsorted : (l.insertionSort entryLe).Pairwise entryLe :=
      List.sorted_insertionSort entryLe l
    have hmem : e' ∈ l.insertionSort entryLe :=
      (List.perm_insertionSort entryLe l).mem_iff.mpr he'
    obtain ⟨e, hfind, hem, hex, hle⟩ := find?_min_of_sorted e'.id _ hsorted e' hmem rfl
    refine ⟨e, ?_, (List.perm_insertionSort entryLe l).mem_iff.mp hem, hex, ?_, ?_⟩
    · unfold processEntries
      rw [find?_dedupByKeyId]
      exact hfind
    · rw [entryLe_iff] at hle
      omega
    · rw [entryLe_iff] at hle
      intro hmt
      omega

theorem multi_index_dedup_prefers_latest_mtime_witness :
    ∃ e, (processEntries dupEntries).find? (fun a => a.id == 5) = some e ∧
      e ∈ dupEntries ∧ e.id = 5 ∧ 10 ≤ e.index_mtime ∧
      (e.index_mtime = 10 → e.pack_index ≤ 0) := by
  have h := (multi_index_dedup_prefers_latest_mtime dupEntries).2.2
    ⟨5, 0, 100, 10⟩ (by decide)
  simpa using h

end Gitoxide
